import Mathlib

/-!
Verification development for the vespa excerpt: the shared string repo
(`vespalib/util/shared_string_repo.cpp`), its handle collections, and the
storage reply metadata copy (`storageapi/messageapi/storagereply.cpp`).

The excerpt ships only the .cpp files; the class declarations
(`shared_string_repo.h`, `storagereply.h`, the `Entry` type, `roundUp2inN`,
`allocate`/`release`/`reclaim`/`resolve`) live in headers that are not part
of the excerpt.  Definitions taken from those missing parts are modelled
from the spec and marked as such in their doc comments; everything else is
a direct shallow embedding of the code in the .cpp files.
-/

namespace Vespa

/-- Modelled from the spec: `roundUp2inN` (from the vespalib allocation
utilities, not in the excerpt) rounds a byte count up to "the next
convenient power-of-two-aligned block", i.e. the smallest power of two
that is at least the argument.  Implemented by doubling an accumulator,
with the argument itself as (more than enough) fuel. -/
def nextPow2Loop (n : Nat) : Nat → Nat → Nat
  | 0, p => p
  | fuel + 1, p => if n ≤ p then p else nextPow2Loop n fuel (2 * p)

/-- `roundUp2inN n` is the smallest power of two `≥ n` (and `1` for `n = 0`). -/
def roundUp2inN (n : Nat) : Nat := nextPow2Loop n n 1

theorem nextPow2Loop_ge (n : Nat) :
    ∀ fuel p, n ≤ 2 ^ fuel * p → n ≤ nextPow2Loop n fuel p := by
  intro fuel
  induction fuel with
  | zero =>
    intro p h
    simpa [nextPow2Loop] using h
  | succ f ih =>
    intro p h
    simp only [nextPow2Loop]
    split
    · assumption
    · exact ih (2 * p) (by rw [pow_succ] at h; linarith)

theorem le_roundUp2inN (n : Nat) : n ≤ roundUp2inN n := by
  refine nextPow2Loop_ge n n 1 ?_
  have := Nat.lt_two_pow n
  omega

theorem nextPow2Loop_pow2 (n : Nat) :
    ∀ fuel p, (∃ k, p = 2 ^ k) → ∃ k, nextPow2Loop n fuel p = 2 ^ k := by
  intro fuel
  induction fuel with
  | zero => intro p h; simpa [nextPow2Loop] using h
  | succ f ih =>
    intro p h
    simp only [nextPow2Loop]
    split
    · exact h
    · refine ih (2 * p) ?_
      obtain ⟨k, rfl⟩ := h
      exact ⟨k + 1, by ring⟩

theorem roundUp2inN_pow2 (n : Nat) : ∃ k, roundUp2inN n = 2 ^ k :=
  nextPow2Loop_pow2 n n 1 ⟨0, rfl⟩

/-- Modelled from the spec: an entry slot is "Free: holds the index of the
next free slot […] reference count = 0, no string payload" or "Live: holds
an owned copy of the interned string bytes and a reference count ≥ 1".
The free-list sentinel is modelled as `none`.  The `Entry` class itself is
declared in the missing header; the .cpp only shows that
`_entries.emplace_back(_free)` builds a free entry whose link is the
current free-list head. -/
inductive Entry where
  | free (link : Option Nat)
  | live (str : String) (ref_cnt : Nat)
  deriving DecidableEq

/-- Modelled from the spec: the byte size of an `Entry` slot
(`sizeof(Entry)` in `make_entries`).  The header declaring `Entry` is not
in the excerpt; any fixed positive value is faithful to the spec ("exact
constants are not behaviorally load-bearing").  We fix 64 bytes, a
representative size for a small-string-optimized string plus bookkeeping. -/
def entry_size : Nat := 64

/-- A partition owns the growable slot table `_entries` and the free-list
head `_free` (sentinel = `none`).  The std::vector is modelled as a list
whose size equals its capacity, which `make_entries` re-establishes after
every growth (the loop fills the vector up to capacity, and no other
operation changes the size). -/
structure Partition where
  entries : List Entry
  free : Option Nat
  deriving DecidableEq

/-- A default-constructed partition: no slots, empty free list. -/
def Partition.empty : Partition := ⟨[], none⟩

/-- The loop body of `make_entries`:
`while (size < capacity) { _entries.emplace_back(_free); _free = size - 1; }`,
iterated `n` times (the number of slots still to create). -/
def fill_free (p : Partition) : Nat → Partition
  | 0 => p
  | n + 1 =>
    fill_free ⟨p.entries ++ [Entry.free p.free], some p.entries.length⟩ n

/-- `SharedStringRepo::Partition::make_entries` from the .cpp:
`hint = max(hint, size + 1)`, `want_mem = roundUp2inN(hint * sizeof(Entry))`,
`want_entries = want_mem / sizeof(Entry)`, reserve, then fill new slots onto
the free list. -/
def make_entries (p : Partition) (hint : Nat) : Partition :=
  let hint2 := max hint (p.entries.length + 1)
  let want_mem := roundUp2inN (hint2 * entry_size)
  let want_entries := want_mem / entry_size
  fill_free p (want_entries - p.entries.length)

theorem fill_free_entries (p : Partition) :
    ∀ n, ∃ ext : List Entry,
      (fill_free p n).entries = p.entries ++ ext ∧ ext.length = n := by
  suffices h : ∀ n p, ∃ ext : List Entry,
      (fill_free p n).entries = p.entries ++ ext ∧ ext.length = n by
    intro n; exact h n p
  intro n
  induction n with
  | zero => intro p; exact ⟨[], by simp [fill_free]⟩
  | succ m ih =>
    intro p
    obtain ⟨ext, he, hl⟩ := ih ⟨p.entries ++ [Entry.free p.free], some p.entries.length⟩
    exact ⟨[Entry.free p.free] ++ ext, by simp [fill_free, he], by simp [hl]⟩

theorem fill_free_length (p : Partition) (n : Nat) :
    (fill_free p n).entries.length = p.entries.length + n := by
  obtain ⟨ext, he, hl⟩ := fill_free_entries p n
  simp [he, hl]

theorem fill_free_free (p : Partition) :
    ∀ n, 0 < n →
      (fill_free p n).free = some (p.entries.length + n - 1) := by
  suffices h : ∀ n p, 0 < n →
      (fill_free p n).free = some (p.entries.length + n - 1) by
    intro n hn; exact h n p hn
  intro n
  induction n with
  | zero => intro p h; omega
  | succ m ih =>
    intro p _
    cases m with
    | zero => simp [fill_free]
    | succ k =>
      have h := ih ⟨p.entries ++ [Entry.free p.free], some p.entries.length⟩
        (Nat.succ_pos k)
      rw [show fill_free p (k + 1 + 1) =
            fill_free ⟨p.entries ++ [Entry.free p.free], some p.entries.length⟩
              (k + 1) from rfl, h]
      simp
      omega

/-- The target slot count of `make_entries` is at least `max hint (size+1)`. -/
theorem make_entries_want_ge (p : Partition) (hint : Nat) :
    max hint (p.entries.length + 1) ≤
      roundUp2inN (max hint (p.entries.length + 1) * entry_size) / entry_size := by
  rw [Nat.le_div_iff_mul_le (by decide : 0 < entry_size)]
  exact le_roundUp2inN _

theorem make_entries_length (p : Partition) (hint : Nat) :
    (make_entries p hint).entries.length =
      roundUp2inN (max hint (p.entries.length + 1) * entry_size) / entry_size := by
  have hw := make_entries_want_ge p hint
  simp only [make_entries, fill_free_length]
  omega

theorem make_entries_length_lt (p : Partition) (hint : Nat) :
    p.entries.length < (make_entries p hint).entries.length := by
  have hw := make_entries_want_ge p hint
  rw [make_entries_length]
  omega

/-- Growth never touches a pre-existing slot. -/
theorem fill_free_getElem_old (p : Partition) (n i : Nat)
    (hi : i < p.entries.length) :
    (fill_free p n).entries[i]? = p.entries[i]? := by
  obtain ⟨ext, he, -⟩ := fill_free_entries p n
  rw [he, List.getElem?_append_left hi]

/-- Contents of the slots created by `fill_free`: each new slot is `Free`,
the first one links to the old free-list head and each later one links to
its predecessor. -/
theorem fill_free_getElem_new :
    ∀ n p k, k < n →
      (fill_free p n).entries[p.entries.length + k]? =
        some (Entry.free
          (if k = 0 then p.free else some (p.entries.length + k - 1))) := by
  intro n
  induction n with
  | zero => intro p k hk; omega
  | succ m ih =>
    intro p k hk
    rw [show fill_free p (m + 1) =
          fill_free ⟨p.entries ++ [Entry.free p.free], some p.entries.length⟩
            m from rfl]
    cases k with
    | zero =>
      simp only [Nat.add_zero, if_pos rfl]
      rw [fill_free_getElem_old
        ⟨p.entries ++ [Entry.free p.free], some p.entries.length⟩ m
        p.entries.length (by simp)]
      simp
    | succ j =>
      have h := ih ⟨p.entries ++ [Entry.free p.free], some p.entries.length⟩ j
        (by omega)
      simp only [List.length_append, List.length_cons, List.length_nil] at h
      rw [show p.entries.length + (j + 1) = p.entries.length + 1 + j by omega, h]
      cases j with
      | zero => simp
      | succ i =>
        rw [if_neg (Nat.succ_ne_zero i), if_neg (Nat.succ_ne_zero (i + 1))]

/-- Walking the intrusive free list: `Walk es o l` says that starting from
head `o` and following links, one visits exactly the slots in `l` (in
order), every visited slot is a `Free` slot of `es`, and the walk ends at
the sentinel. -/
inductive Walk (es : List Entry) : Option Nat → List Nat → Prop where
  | nil : Walk es none []
  | cons {i : Nat} {link : Option Nat} {l : List Nat} :
      es[i]? = some (Entry.free link) → Walk es link l → Walk es (some i) (i :: l)

theorem Walk.mem_free {es : List Entry} {o : Option Nat} {l : List Nat}
    (w : Walk es o l) : ∀ j ∈ l, ∃ lk, es[j]? = some (Entry.free lk) := by
  induction w with
  | nil => intro j hj; cases hj
  | cons hi _ ih =>
    intro j hj
    rcases List.mem_cons.mp hj with rfl | hj
    · exact ⟨_, hi⟩
    · exact ih j hj

theorem Walk.mem_lt {es : List Entry} {o : Option Nat} {l : List Nat}
    (w : Walk es o l) : ∀ j ∈ l, j < es.length := by
  intro j hj
  obtain ⟨lk, hlk⟩ := w.mem_free j hj
  obtain ⟨h, -⟩ := List.getElem?_eq_some.mp hlk
  exact h

theorem Walk.head_lt {es : List Entry} {i : Nat} {l : List Nat}
    (w : Walk es (some i) l) : i < es.length := by
  cases w with
  | cons hi _ =>
    obtain ⟨h, -⟩ := List.getElem?_eq_some.mp hi
    exact h

/-- A walk is unaffected by overwriting a slot it does not visit. -/
theorem Walk.set_not_mem {es : List Entry} {o : Option Nat} {l : List Nat}
    (w : Walk es o l) (i : Nat) (v : Entry) (hi : i ∉ l) :
    Walk (es.set i v) o l := by
  induction w with
  | nil => exact Walk.nil
  | cons hj wl ih =>
    rename_i j link l'
    refine Walk.cons ?_ (ih (fun h => hi (List.mem_cons_of_mem _ h)))
    have hne : i ≠ j := fun h => hi (h ▸ List.mem_cons_self _ _)
    rw [List.getElem?_set_ne hne]
    exact hj

/-- A walk is unaffected by appending slots at the end of the table. -/
theorem Walk.append {es : List Entry} {o : Option Nat} {l : List Nat}
    (w : Walk es o l) (ext : List Entry) : Walk (es ++ ext) o l := by
  induction w with
  | nil => exact Walk.nil
  | cons hj wl ih =>
    refine Walk.cons ?_ ih
    obtain ⟨hlt, -⟩ := List.getElem?_eq_some.mp hj
    rw [List.getElem?_append_left hlt]
    exact hj

/-- After `fill_free`, the free list starts with the newly created slots in
reverse creation order, and then continues with the old free list. -/
theorem fill_free_walk :
    ∀ n p (l : List Nat), Walk p.entries p.free l →
      Walk (fill_free p n).entries (fill_free p n).free
        ((List.range' p.entries.length n).reverse ++ l) := by
  intro n
  induction n with
  | zero => intro p l w; simpa [fill_free] using w
  | succ m ih =>
    intro p l w
    rw [show fill_free p (m + 1) =
          fill_free ⟨p.entries ++ [Entry.free p.free], some p.entries.length⟩
            m from rfl]
    have w' : Walk (p.entries ++ [Entry.free p.free]) (some p.entries.length)
        (p.entries.length :: l) := by
      refine Walk.cons ?_ (w.append [Entry.free p.free])
      rw [List.getElem?_append_right (Nat.le_refl _)]
      simp
    have h := ih ⟨p.entries ++ [Entry.free p.free], some p.entries.length⟩
      (p.entries.length :: l) w'
    simp only [List.length_append, List.length_cons, List.length_nil] at h
    rw [List.range'_succ, List.reverse_cons, List.append_assoc]
    exact h

/-- C2 core: growth prepends the new slots (descending) to the free list. -/
theorem make_entries_walk (p : Partition) (hint : Nat) (l : List Nat)
    (w : Walk p.entries p.free l) :
    Walk (make_entries p hint).entries (make_entries p hint).free
      ((List.range' p.entries.length
          ((make_entries p hint).entries.length - p.entries.length)).reverse ++ l) := by
  have hlen : (make_entries p hint).entries.length = p.entries.length +
      (roundUp2inN (max hint (p.entries.length + 1) * entry_size) / entry_size
        - p.entries.length) := by
    simp only [make_entries, fill_free_length]
  rw [hlen]
  simp only [Nat.add_sub_cancel_left]
  exact fill_free_walk _ p l w

/-- Modelled from the spec: `allocate(content)` — "if the free-list head is
the sentinel, call `grow` first with a hint of one more than current size.
Pop the head of the free list (the slot it points to becomes the new head),
convert that slot from Free to Live with the given content and reference
count 1, return its index."  The implementation lives in the missing
header; misuse (a corrupt free list) is modelled as `none`. -/
def allocate (p : Partition) (s : String) : Option (Nat × Partition) :=
  let q := if p.free.isNone then make_entries p (p.entries.length + 1) else p
  match q.free with
  | none => none
  | some h =>
    match q.entries[h]? with
    | some (Entry.free link) =>
      some (h, ⟨q.entries.set h (Entry.live s 1), link⟩)
    | _ => none

/-- Modelled from the spec: `release(index)` — "decrement the reference
count; if it reaches zero, discard the string content, mark the slot Free,
and push it back onto the free list (its link becomes the current head; the
head becomes this index)."  Release of a Free slot or an invalid index is
undefined-contract misuse ("assert reference count > 0"), modelled as
`none`. -/
def release (p : Partition) (i : Nat) : Option Partition :=
  match p.entries[i]? with
  | some (Entry.live s (n + 1)) =>
    if n = 0 then some ⟨p.entries.set i (Entry.free p.free), some i⟩
    else some ⟨p.entries.set i (Entry.live s n), p.free⟩
  | _ => none

/-- Modelled from the spec: `acquire(index)` — "increment the reference
count of a Live slot at that index.  Precondition: slot is Live." -/
def acquire (p : Partition) (i : Nat) : Option Partition :=
  match p.entries[i]? with
  | some (Entry.live s n) => some ⟨p.entries.set i (Entry.live s (n + 1)), p.free⟩
  | _ => none

/-- Modelled from the spec: `find(content)` — "exact byte-equality lookup
among Live slots"; returns the index of the first Live slot with equal
content. -/
def find_from : List Entry → String → Option Nat
  | [], _ => none
  | Entry.live t _ :: es, s =>
    if t = s then some 0 else (find_from es s).map (· + 1)
  | Entry.free _ :: es, s => (find_from es s).map (· + 1)

def find (p : Partition) (s : String) : Option Nat :=
  find_from p.entries s

theorem find_from_spec :
    ∀ (es : List Entry) (s : String) (i : Nat), find_from es s = some i →
      ∃ c, es[i]? = some (Entry.live s c) := by
  intro es
  induction es with
  | nil => intro s i h; simp [find_from] at h
  | cons e es ih =>
    intro s i h
    match e with
    | Entry.live t c =>
      rw [find_from] at h
      split at h
      · rename_i ht
        cases h
        exact ⟨c, by simp [ht]⟩
      · obtain ⟨j, hj, rfl⟩ := Option.map_eq_some'.mp h
        obtain ⟨c', hc'⟩ := ih s j hj
        exact ⟨c', by simpa using hc'⟩
    | Entry.free lk =>
      rw [find_from] at h
      obtain ⟨j, hj, rfl⟩ := Option.map_eq_some'.mp h
      obtain ⟨c', hc'⟩ := ih s j hj
      exact ⟨c', by simpa using hc'⟩

/-- Every Free slot's link is a valid slot index or the sentinel. -/
def FreeLinksOk (p : Partition) : Prop :=
  ∀ (i : Nat) (link : Option Nat), p.entries[i]? = some (Entry.free link) →
    ∀ j, link = some j → j < p.entries.length

/-- Free-list integrity: walking the free list from the head visits only
Free slots, visits no slot twice, and terminates at the sentinel; and every
Free slot's link is a valid slot index or the sentinel. -/
def Inv (p : Partition) : Prop :=
  (∃ l, Walk p.entries p.free l ∧ l.Nodup) ∧ FreeLinksOk p

/-- The head of the old free list is valid whenever the walk exists. -/
theorem Inv.free_valid {p : Partition} (h : Inv p) :
    ∀ j, p.free = some j → j < p.entries.length := by
  intro j hj
  obtain ⟨⟨l, w, -⟩, -⟩ := h
  rw [hj] at w
  exact w.head_lt

theorem Inv_fill_free (p : Partition) (n : Nat) (h : Inv p) :
    Inv (fill_free p n) := by
  obtain ⟨⟨l, w, nd⟩, fl⟩ := h
  constructor
  · refine ⟨(List.range' p.entries.length n).reverse ++ l,
      fill_free_walk n p l w, ?_⟩
    refine List.Nodup.append (List.nodup_reverse.mpr (List.nodup_range' _ _)) nd ?_
    intro a ha hb
    have h1 : p.entries.length ≤ a :=
      (List.mem_range'_1.mp (List.mem_reverse.mp ha)).1
    have h2 : a < p.entries.length := w.mem_lt a hb
    omega
  · intro i link hi j hj
    rw [fill_free_length]
    by_cases hc : i < p.entries.length
    · rw [fill_free_getElem_old p n i hc] at hi
      have := fl i link hi j hj
      omega
    · have hilt : i < p.entries.length + n := by
        obtain ⟨hlt, -⟩ := List.getElem?_eq_some.mp hi
        rw [fill_free_length] at hlt
        exact hlt
      have hik : i - p.entries.length < n := by omega
      have h2 := fill_free_getElem_new n p (i - p.entries.length) hik
      rw [show p.entries.length + (i - p.entries.length) = i by omega] at h2
      rw [hi] at h2
      have h3 : link =
          if i - p.entries.length = 0 then p.free else some (i - 1) := by
        simpa using h2
      by_cases h0 : i - p.entries.length = 0
      · rw [if_pos h0] at h3
        subst h3
        rw [hj] at w
        have := w.head_lt
        omega
      · rw [if_neg h0] at h3
        rw [h3] at hj
        cases hj
        omega

theorem Inv_make_entries (p : Partition) (hint : Nat) (h : Inv p) :
    Inv (make_entries p hint) :=
  Inv_fill_free p _ h

/-- Success characterization of `allocate`. -/
theorem allocate_eq (p : Partition) (s : String) (i : Nat) (p' : Partition)
    (ha : allocate p s = some (i, p')) :
    ∃ (q : Partition) (link : Option Nat),
      q = (if p.free.isNone then make_entries p (p.entries.length + 1) else p) ∧
      q.free = some i ∧ q.entries[i]? = some (Entry.free link) ∧
      p' = ⟨q.entries.set i (Entry.live s 1), link⟩ := by
  simp only [allocate] at ha
  split at ha
  · cases ha
  · rename_i hfree
    split at ha
    · rename_i link hentry
      cases ha
      exact ⟨_, link, rfl, hfree, hentry, rfl⟩
    · cases ha

theorem Inv_allocate (p : Partition) (s : String) (i : Nat) (p' : Partition)
    (ha : allocate p s = some (i, p')) (h : Inv p) : Inv p' := by
  obtain ⟨q, link, hq, hfree, hentry, hp'⟩ := allocate_eq p s i p' ha
  have hInvq : Inv q := by
    rw [hq]
    split
    · exact Inv_make_entries p _ h
    · exact h
  obtain ⟨⟨l, w, nd⟩, fl⟩ := hInvq
  rw [hfree] at w
  cases w with
  | cons hie wtail =>
    rename_i link0 l'
    have hlink : link0 = link := by
      rw [hie] at hentry
      simpa using hentry
    subst hlink
    have hnotmem : i ∉ l' := (List.nodup_cons.mp nd).1
    constructor
    · exact ⟨l', hp' ▸ wtail.set_not_mem i (Entry.live s 1) hnotmem,
        (List.nodup_cons.mp nd).2⟩
    · intro j lk hj j' hj'
      rw [hp'] at hj ⊢
      simp only [List.length_set]
      by_cases hji : i = j
      · subst hji
        obtain ⟨hlt, -⟩ := List.getElem?_eq_some.mp hie
        rw [List.getElem?_set_self hlt] at hj
        cases hj
      · rw [List.getElem?_set_ne hji] at hj
        exact fl j lk hj j' hj'

theorem Inv_release (p : Partition) (i : Nat) (p' : Partition)
    (hr : release p i = some p') (h : Inv p) : Inv p' := by
  obtain ⟨⟨l, w, nd⟩, fl⟩ := h
  simp only [release] at hr
  split at hr
  · rename_i s n hentry
    have hilt : i < p.entries.length := by
      obtain ⟨hlt, -⟩ := List.getElem?_eq_some.mp hentry
      exact hlt
    have hnotmem : i ∉ l := by
      intro hmem
      obtain ⟨lk, hlk⟩ := w.mem_free i hmem
      rw [hentry] at hlk
      cases hlk
    split at hr
    · -- reference count reached zero: push the slot onto the free list
      rename_i hn0
      cases hr
      constructor
      · refine ⟨i :: l, ?_, List.nodup_cons.mpr ⟨hnotmem, nd⟩⟩
        refine Walk.cons ?_ (w.set_not_mem i (Entry.free p.free) hnotmem)
        exact List.getElem?_set_self hilt
      · intro j lk hj j' hj'
        simp only [List.length_set]
        by_cases hji : i = j
        · subst hji
          rw [List.getElem?_set_self hilt] at hj
          have hlk : p.free = lk := by simpa using hj
          subst hlk
          rw [hj'] at w
          exact w.head_lt
        · rw [List.getElem?_set_ne hji] at hj
          exact fl j lk hj j' hj'
    · -- reference count still positive: slot stays live
      cases hr
      constructor
      · exact ⟨l, w.set_not_mem i _ hnotmem, nd⟩
      · intro j lk hj j' hj'
        simp only [List.length_set]
        by_cases hji : i = j
        · subst hji
          rw [List.getElem?_set_self hilt] at hj
          cases hj
        · rw [List.getElem?_set_ne hji] at hj
          exact fl j lk hj j' hj'
  · cases hr

/-- The partition-level operations of the spec: `grow`, `allocate`,
`release`. -/
inductive POp where
  | grow (hint : Nat)
  | alloc (s : String)
  | rel (i : Nat)

/-- One partition operation; misuse propagates as `none`. -/
def runOp (p : Partition) : POp → Option Partition
  | POp.grow h => some (make_entries p h)
  | POp.alloc s => (allocate p s).map Prod.snd
  | POp.rel i => release p i

/-- A sequence of partition operations. -/
def runOps (p : Partition) (ops : List POp) : Option Partition :=
  ops.foldlM runOp p

theorem Inv_runOp (p : Partition) (op : POp) (p' : Partition)
    (hr : runOp p op = some p') (h : Inv p) : Inv p' := by
  cases op with
  | grow hint =>
    cases hr
    exact Inv_make_entries p hint h
  | alloc s =>
    obtain ⟨⟨i, q⟩, ha, rfl⟩ := Option.map_eq_some'.mp hr
    exact Inv_allocate p s i q ha h
  | rel i => exact Inv_release p i p' hr h

theorem Inv_runOps :
    ∀ (ops : List POp) (p p' : Partition),
      Inv p → runOps p ops = some p' → Inv p' := by
  intro ops
  induction ops with
  | nil =>
    intro p p' h hr
    simp only [runOps, List.foldlM_nil] at hr
    cases hr
    exact h
  | cons op ops ih =>
    intro p p' h hr
    rw [runOps, List.foldlM_cons] at hr
    obtain ⟨q, hq, hrest⟩ := Option.bind_eq_some.mp hr
    exact ih q p' (Inv_runOp p op q hq h) hrest

/-- Modelled from the spec: the partition count is "fixed at Repository
construction", "a power-of-two partition count"; the constant lives in the
missing header.  We fix 64. -/
def num_parts : Nat := 64

/-- Modelled from the spec: "Partition selection by hash → a pure function
from string bytes to partition index; no state dependency."  A polynomial
byte hash (the concrete mixing function is in the missing header and is not
behaviorally load-bearing). -/
def hashString (s : String) : Nat :=
  s.data.foldl (fun h c => h * 33 + c.toNat) 5381

def partOf (s : String) : Nat := hashString s % num_parts

/-- Modelled from the spec: a Handle "is a 32-bit packed value encoding
(partition id, slot index)".  The packing arithmetic is in the missing
header; the model keeps the two components. -/
structure Handle where
  pid : Nat
  idx : Nat
  deriving DecidableEq

/-- The repository: one slot table per partition. -/
structure SharedStringRepo where
  parts : List Partition
  deriving DecidableEq

/-- `SharedStringRepo::SharedStringRepo() = default` (from the .cpp): all
partitions default-constructed. -/
def SharedStringRepo.new : SharedStringRepo :=
  ⟨List.replicate num_parts Partition.empty⟩

/-- `SharedStringRepo::get()` (from the .cpp) returns a function-local
`static SharedStringRepo repo`.  The static storage cell is modelled as
explicit state: `none` before the first call; `get` returns the borrowed
instance together with the cell contents after the call. -/
def SharedStringRepo.get :
    Option SharedStringRepo → SharedStringRepo × Option SharedStringRepo
  | none => (SharedStringRepo.new, some SharedStringRepo.new)
  | some r => (r, some r)

/-- Modelled from the spec: `resolve(string) -> Handle` — "hash the string
to select a partition; within that partition, `find` then `acquire`, or
`allocate` if absent; pack (partition id, slot index) into a Handle."
Implementation in the missing header; failure of the internal contract is
modelled as `none`. -/
def SharedStringRepo.resolve (r : SharedStringRepo) (s : String) :
    Option (Handle × SharedStringRepo) :=
  let pid := partOf s
  match r.parts[pid]? with
  | none => none
  | some part =>
    match find part s with
    | some i =>
      (acquire part i).map fun part' => (⟨pid, i⟩, ⟨r.parts.set pid part'⟩)
    | none =>
      (allocate part s).map fun ip => (⟨pid, ip.1⟩, ⟨r.parts.set pid ip.2⟩)

/-- Modelled from the spec: `resolve(Handle) -> string view` — "unpack the
handle, index into the named partition's Live slot, return a reference to
its content". -/
def SharedStringRepo.resolve_handle (r : SharedStringRepo) (h : Handle) :
    Option String :=
  match r.parts[h.pid]? with
  | some part =>
    match part.entries[h.idx]? with
    | some (Entry.live s _) => some s
    | _ => none
  | none => none

/-- Modelled from the spec: `reclaim(Handle)` — "unpack the handle, call
`release` on the named partition's slot at that index." -/
def SharedStringRepo.reclaim (r : SharedStringRepo) (h : Handle) :
    Option SharedStringRepo :=
  match r.parts[h.pid]? with
  | some part => (release part h.idx).map fun part' => ⟨r.parts.set h.pid part'⟩
  | none => none

/-- The reference count of the entry a handle names (0 for a Free slot or
an invalid handle). -/
def refCountAt (r : SharedStringRepo) (h : Handle) : Nat :=
  match r.parts[h.pid]? with
  | some part =>
    match part.entries[h.idx]? with
    | some (Entry.live _ c) => c
    | _ => 0
  | none => 0

/-- One `reclaim` decrements exactly the reference count named by its
handle and leaves every other count untouched. -/
theorem reclaim_refCount (r r' : SharedStringRepo) (h0 : Handle)
    (hr : r.reclaim h0 = some r') :
    refCountAt r h0 = refCountAt r' h0 + 1 ∧
      ∀ h : Handle, h ≠ h0 → refCountAt r' h = refCountAt r h := by
  simp only [SharedStringRepo.reclaim] at hr
  split at hr
  · rename_i part hpart
    obtain ⟨part', hrel, rfl⟩ := Option.map_eq_some'.mp hr
    have hpidlt : h0.pid < r.parts.length := by
      obtain ⟨hlt, -⟩ := List.getElem?_eq_some.mp hpart
      exact hlt
    simp only [release] at hrel
    split at hrel
    · rename_i s n hentry
      have hidxlt : h0.idx < part.entries.length := by
        obtain ⟨hlt, -⟩ := List.getElem?_eq_some.mp hentry
        exact hlt
      have hr0 : refCountAt r h0 = n + 1 := by
        simp only [refCountAt, hpart, hentry]
      have hother : ∀ (newE : Entry) (newF : Option Nat)
          (hpart' : part' = ⟨part.entries.set h0.idx newE, newF⟩),
          ∀ h : Handle, h ≠ h0 →
            refCountAt ⟨r.parts.set h0.pid part'⟩ h = refCountAt r h := by
        intro newE newF hpart' h hne
        by_cases hp : h.pid = h0.pid
        · have hi : h.idx ≠ h0.idx := by
            intro he
            apply hne
            cases h
            cases h0
            simp_all
          simp only [refCountAt, hp, List.getElem?_set_self hpidlt, hpart,
            hpart', List.getElem?_set_ne (Ne.symm hi)]
        · have hp' : h0.pid ≠ h.pid := fun e => hp e.symm
          simp only [refCountAt, List.getElem?_set_ne hp']
      split at hrel
      · -- reference count reaches zero: the slot is freed
        rename_i hn0
        subst hn0
        cases hrel
        refine ⟨?_, hother _ _ rfl⟩
        rw [hr0]
        simp only [refCountAt, List.getElem?_set_self hpidlt,
          List.getElem?_set_self hidxlt]
      · -- reference count stays positive
        cases hrel
        refine ⟨?_, hother _ _ rfl⟩
        rw [hr0]
        simp only [refCountAt, List.getElem?_set_self hpidlt,
          List.getElem?_set_self hidxlt]
    · cases hrel
  · cases hr

/-- `SharedStringRepo::WeakHandles`: an ordered sequence of raw handle
values (the size hint of the constructor only pre-sizes storage). -/
structure WeakHandles where
  handles : List Handle

/-- `SharedStringRepo::StrongHandles`: an ordered sequence of handles whose
holder owns the reclaim obligation. -/
structure StrongHandles where
  handles : List Handle

/-- The repository effect of a destructor that issues the given reclaim
calls in order. -/
def applyReclaims (r : SharedStringRepo) (hs : List Handle) :
    Option SharedStringRepo :=
  hs.foldlM SharedStringRepo.reclaim r

/-- `StrongHandles::~StrongHandles()` from the .cpp:
`for (uint32_t handle: _handles) { _repo.reclaim(handle); }`. -/
def StrongHandles.destroy (sh : StrongHandles) (r : SharedStringRepo) :
    Option SharedStringRepo :=
  applyReclaims r sh.handles

/-- `WeakHandles::~WeakHandles() = default` from the .cpp: the destructor
issues no reclaim calls at all. -/
def WeakHandles.destroy (_w : WeakHandles) (r : SharedStringRepo) :
    Option SharedStringRepo :=
  applyReclaims r []

/-- Folding `reclaim` over a handle list decrements each named reference
count once per occurrence of its handle. -/
theorem applyReclaims_refCount :
    ∀ (hs : List Handle) (r r' : SharedStringRepo),
      applyReclaims r hs = some r' →
      ∀ h : Handle, refCountAt r h = refCountAt r' h + hs.count h := by
  intro hs
  induction hs with
  | nil =>
    intro r r' hr h
    simp only [applyReclaims, List.foldlM_nil] at hr
    cases hr
    simp
  | cons h0 hs ih =>
    intro r r' hr h
    rw [applyReclaims, List.foldlM_cons] at hr
    obtain ⟨r1, hrec, hrest⟩ := Option.bind_eq_some.mp hr
    obtain ⟨hdec, hoth⟩ := reclaim_refCount r r1 h0 hrec
    have hih := ih r1 r' hrest h
    by_cases he : h = h0
    · subst he
      have hc : (h :: hs).count h = hs.count h + 1 := by
        simp [List.count_cons]
      rw [hc]
      omega
    · rw [List.count_cons, if_neg (by simpa using fun e => he e.symm)]
      have := hoth h he
      omega

theorem make_entries_getElem_old (p : Partition) (hint : Nat) (i : Nat)
    (hi : i < p.entries.length) :
    (make_entries p hint).entries[i]? = p.entries[i]? := by
  simp only [make_entries]
  exact fill_free_getElem_old p _ i hi

/-- Every slot created by growth is Free; the first new slot links to the
old free-list head, each later one to its predecessor. -/
theorem make_entries_new_slots (p : Partition) (hint : Nat) (k : Nat)
    (h1 : p.entries.length ≤ k) (h2 : k < (make_entries p hint).entries.length) :
    (make_entries p hint).entries[k]? =
      some (Entry.free
        (if k = p.entries.length then p.free else some (k - 1))) := by
  have hlen : (make_entries p hint).entries.length =
      p.entries.length +
        (roundUp2inN (max hint (p.entries.length + 1) * entry_size) / entry_size
          - p.entries.length) := by
    simp only [make_entries, fill_free_length]
  rw [hlen] at h2
  have h3 := fill_free_getElem_new
    (roundUp2inN (max hint (p.entries.length + 1) * entry_size) / entry_size
      - p.entries.length) p (k - p.entries.length) (by omega)
  rw [show p.entries.length + (k - p.entries.length) = k by omega] at h3
  have h4 : (make_entries p hint).entries[k]? =
      (fill_free p
        (roundUp2inN (max hint (p.entries.length + 1) * entry_size) / entry_size
          - p.entries.length)).entries[k]? := by
    simp only [make_entries]
  rw [h4, h3]
  by_cases h0 : k = p.entries.length
  · rw [if_pos (by omega), if_pos h0]
  · rw [if_neg (by omega), if_neg h0]

/-- After growth the free-list head is the last created slot. -/
theorem make_entries_free (p : Partition) (hint : Nat) :
    (make_entries p hint).free =
      some ((make_entries p hint).entries.length - 1) := by
  have hw := make_entries_want_ge p hint
  simp only [make_entries, fill_free_length]
  rw [fill_free_free p _ (by omega)]

/-- Modelled from the spec: the trace context carried by storage messages —
a verbosity level plus recorded entries; the reply constructor only reads
emptiness and the level.  (`vespalib::Trace` is not in the excerpt.) -/
structure Trace where
  level : Nat
  entries : List String
  deriving DecidableEq

def Trace.isEmpty (t : Trace) : Bool := t.entries.isEmpty

/-- Modelled from the spec: the `StorageCommand` fields read by the reply
constructor (`storagecommand.h` is not in the excerpt): message type,
priority, message id, optional address, trace, transport context. -/
structure StorageCommand where
  msgType : Nat
  priority : Nat
  msgId : Nat
  address : Option Nat
  trace : Trace
  transportContext : Nat
  deriving DecidableEq

/-- Modelled from the spec: `cmd.getType().getReplyType()` — each command
type has a distinguished reply type; kept as a function on type codes. -/
def getReplyType (t : Nat) : Nat := t + 1

structure StorageReply where
  msgType : Nat
  msgId : Nat
  result : Nat
  priority : Nat
  address : Option Nat
  trace : Trace
  transportContext : Nat
  deriving DecidableEq

/-- `StorageReply::StorageReply(const StorageCommand& cmd, ReturnCode code)`
from the .cpp: the base is built from the reply type and `cmd.getMsgId()`;
then `setPriority(cmd.getPriority())`; the address is copied when the
command has one; the trace is copy-constructed when non-empty, otherwise
only its level is carried over; finally the transport context is copied. -/
def StorageReply.ofCommand (cmd : StorageCommand) (code : Nat) : StorageReply :=
  { msgType := getReplyType cmd.msgType
    msgId := cmd.msgId
    result := code
    priority := cmd.priority
    address := match cmd.address with
      | some a => some a
      | none => none
    trace := if cmd.trace.isEmpty then ⟨cmd.trace.level, []⟩ else cmd.trace
    transportContext := cmd.transportContext }

/-! ## Claims -/

/-- C1, as stated, is false: `make_entries(hint)` does not always create at
least `hint` additional slots.  On a partition with one existing slot and
`hint = 2`, the target is `roundUp2inN(2 * sizeof(Entry)) / sizeof(Entry)
= 2` total slots, so only one additional slot is created. -/
theorem claim_C1_counterexample :
    ¬ (2 ≤ (make_entries ⟨[Entry.live "x" 1], none⟩ 2).entries.length
          - (⟨[Entry.live "x" 1], none⟩ : Partition).entries.length) := by
  decide

/-- C1 (amended): for every partition state and hint, `make_entries(hint)`
creates at least one additional slot and brings the total slot count to at
least `hint`, the new total capacity being computed by rounding the
byte-size requirement `max(hint, size+1) * sizeof(Entry)` up to a
power-of-two block (`roundUp2inN`) and dividing back by the entry size. -/
theorem claim_C1_amended (p : Partition) (hint : Nat) :
    (make_entries p hint).entries.length =
      roundUp2inN (max hint (p.entries.length + 1) * entry_size) / entry_size ∧
    p.entries.length < (make_entries p hint).entries.length ∧
    hint ≤ (make_entries p hint).entries.length := by
  refine ⟨make_entries_length p hint, make_entries_length_lt p hint, ?_⟩
  have h1 := make_entries_length p hint
  have h2 := make_entries_want_ge p hint
  have h3 : hint ≤ max hint (p.entries.length + 1) := le_max_left _ _
  omega

/-- C2: after `make_entries`, every newly created slot is Free with its
link set to the free-list head current at its creation (the old head for
the first new slot, the preceding new slot for each later one), the head
ends at the last new slot, and the free list threads through all newly
created slots in reverse creation order with the previously-free slots
reachable beyond them. -/
theorem claim_C2 (p : Partition) (hint : Nat) (l : List Nat)
    (w : Walk p.entries p.free l) :
    (∀ k, p.entries.length ≤ k → k < (make_entries p hint).entries.length →
      (make_entries p hint).entries[k]? =
        some (Entry.free
          (if k = p.entries.length then p.free else some (k - 1)))) ∧
    (make_entries p hint).free =
      some ((make_entries p hint).entries.length - 1) ∧
    Walk (make_entries p hint).entries (make_entries p hint).free
      ((List.range' p.entries.length
        ((make_entries p hint).entries.length - p.entries.length)).reverse ++ l) :=
  ⟨fun k h1 h2 => make_entries_new_slots p hint k h1 h2,
   make_entries_free p hint,
   make_entries_walk p hint l w⟩

/-- C2 witness: growing an empty partition with hint 1 creates slot 0,
Free with the sentinel link, and the free list is exactly `[0]`. -/
theorem claim_C2_witness :
    (make_entries Partition.empty 1).entries[0]? = some (Entry.free none) ∧
    (make_entries Partition.empty 1).free = some 0 ∧
    Walk (make_entries Partition.empty 1).entries
      (make_entries Partition.empty 1).free [0] := by
  obtain ⟨h1, h2, h3⟩ := claim_C2 Partition.empty 1 [] Walk.nil
  refine ⟨?_, h2.trans (by decide), ?_⟩
  · have h4 := h1 0 (by decide) (by decide)
    simpa [Partition.empty] using h4
  · have he : (make_entries Partition.empty 1).entries.length
        - Partition.empty.entries.length = 1 := by decide
    rw [he] at h3
    simpa [Partition.empty] using h3

/-- C3: growth never shrinks the table and never changes a pre-existing
slot, so a handle (slot index) obtained before the growth still resolves
to the same contents. -/
theorem claim_C3 (p : Partition) (hint : Nat) :
    p.entries.length ≤ (make_entries p hint).entries.length ∧
    ∀ i, i < p.entries.length →
      (make_entries p hint).entries[i]? = p.entries[i]? :=
  ⟨Nat.le_of_lt (make_entries_length_lt p hint),
   fun i hi => make_entries_getElem_old p hint i hi⟩

/-- C3 witness: slot 0 (Live "x", refcount 1) is unchanged by a growth with
hint 5. -/
theorem claim_C3_witness :
    (⟨[Entry.live "x" 1], none⟩ : Partition).entries.length ≤
      (make_entries ⟨[Entry.live "x" 1], none⟩ 5).entries.length ∧
    (make_entries ⟨[Entry.live "x" 1], none⟩ 5).entries[0]? =
      some (Entry.live "x" 1) := by
  have h := claim_C3 ⟨[Entry.live "x" 1], none⟩ 5
  exact ⟨h.1, (h.2 0 (by decide)).trans (by decide)⟩

/-- C4: free-list integrity is an invariant preserved by every sequence of
partition operations (`grow`/`make_entries`, `allocate`, `release`):
walking the free list from the head visits only Free slots, visits no slot
twice, terminates at the sentinel, and every Free slot's link is a valid
slot index or the sentinel. -/
theorem claim_C4 (p : Partition) (ops : List POp) (p' : Partition)
    (hInv : Inv p) (hrun : runOps p ops = some p') : Inv p' :=
  Inv_runOps ops p p' hInv hrun

/-- C4 witness: starting from the empty partition, grow by one, allocate
"a", release it: the resulting one-slot partition satisfies the free-list
invariant. -/
theorem claim_C4_witness : Inv ⟨[Entry.free none], some 0⟩ :=
  claim_C4 Partition.empty [POp.grow 1, POp.alloc "a", POp.rel 0]
    ⟨[Entry.free none], some 0⟩
    ⟨⟨[], Walk.nil, List.nodup_nil⟩,
     fun i link h => by simp [Partition.empty] at h⟩
    (by decide)

/-- C5: the StrongHandles destructor reclaims once per contained element:
if destruction succeeds, every reference count drops by exactly the number
of occurrences of its handle in the collection (a handle appended twice is
reclaimed twice). -/
theorem claim_C5 (sh : StrongHandles) (r r' : SharedStringRepo)
    (hd : sh.destroy r = some r') (h : Handle) :
    refCountAt r h = refCountAt r' h + sh.handles.count h :=
  applyReclaims_refCount sh.handles r r' hd h

/-- C5 witness: a StrongHandles holding the same handle twice, destroyed on
a repo whose slot has refcount 2, drops that count by exactly 2 (to a Free
slot, count 0). -/
theorem claim_C5_witness :
    refCountAt ⟨[⟨[Entry.live "a" 2], none⟩]⟩ ⟨0, 0⟩ =
      refCountAt ⟨[⟨[Entry.free none], some 0⟩]⟩ ⟨0, 0⟩ +
        (StrongHandles.mk [⟨0, 0⟩, ⟨0, 0⟩]).handles.count ⟨0, 0⟩ :=
  claim_C5 ⟨[⟨0, 0⟩, ⟨0, 0⟩]⟩ ⟨[⟨[Entry.live "a" 2], none⟩]⟩
    ⟨[⟨[Entry.free none], some 0⟩]⟩ (by decide) ⟨0, 0⟩

/-- C6: destroying a WeakHandles performs no reclamation: whatever handle
values it holds, the repository (every partition's entry table, reference
counts and free list) is returned unchanged. -/
theorem claim_C6 (w : WeakHandles) (r : SharedStringRepo) :
    w.destroy r = some r := rfl

/-- C7: `get()` is idempotent over the static storage cell: after any call
the cell holds exactly the returned instance, a subsequent call returns the
same instance and leaves the cell unchanged, and the first call constructs
the instance. -/
theorem claim_C7 (cell : Option SharedStringRepo) :
    (SharedStringRepo.get cell).2 = some (SharedStringRepo.get cell).1 ∧
    SharedStringRepo.get (SharedStringRepo.get cell).2 =
      SharedStringRepo.get cell ∧
    SharedStringRepo.get none =
      (SharedStringRepo.new, some SharedStringRepo.new) := by
  cases cell <;> simp [SharedStringRepo.get]

/-- C8: round-trip — if `resolve(s)` returns a handle and the updated
repository, then `resolve(handle)` on that repository returns content
byte-equal to `s`. -/
theorem claim_C8 (r : SharedStringRepo) (s : String) (h : Handle)
    (r' : SharedStringRepo) (hr : r.resolve s = some (h, r')) :
    r'.resolve_handle h = some s := by
  simp only [SharedStringRepo.resolve] at hr
  split at hr
  · cases hr
  · rename_i part hpart
    have hpidlt : partOf s < r.parts.length := by
      obtain ⟨hlt, -⟩ := List.getElem?_eq_some.mp hpart
      exact hlt
    split at hr
    · -- the string is already interned: find hit, then acquire
      rename_i i hfind
      obtain ⟨part', hacq, heq⟩ := Option.map_eq_some'.mp hr
      obtain ⟨c, hlive⟩ := find_from_spec part.entries s i hfind
      simp only [acquire] at hacq
      split at hacq
      · rename_i t n hentry
        cases hacq
        cases heq
        rw [hentry] at hlive
        obtain ⟨hts, -⟩ : t = s ∧ n = c := by simpa using hlive
        subst hts
        have hidxlt : i < part.entries.length := by
          obtain ⟨hlt, -⟩ := List.getElem?_eq_some.mp hentry
          exact hlt
        simp only [SharedStringRepo.resolve_handle,
          List.getElem?_set_self hpidlt, List.getElem?_set_self hidxlt]
      · cases hacq
    · -- the string is new: allocate a free slot for it
      rename_i hfind
      obtain ⟨⟨i, part'⟩, hall, heq⟩ := Option.map_eq_some'.mp hr
      cases heq
      obtain ⟨q, link, hqdef, hqfree, hqentry, hp'⟩ :=
        allocate_eq part s i part' hall
      have hidxlt : i < q.entries.length := by
        obtain ⟨hlt, -⟩ := List.getElem?_eq_some.mp hqentry
        exact hlt
      subst hp'
      simp only [SharedStringRepo.resolve_handle,
        List.getElem?_set_self hpidlt, List.getElem?_set_self hidxlt]

/-- C8 witness: interning "a" into the fresh repository yields handle
(partition 6, slot 0), and resolving that handle returns "a". -/
theorem claim_C8_witness :
    SharedStringRepo.resolve_handle
      ⟨(List.replicate 64 Partition.empty).set 6 ⟨[Entry.live "a" 1], none⟩⟩
      ⟨6, 0⟩ = some "a" :=
  claim_C8 SharedStringRepo.new "a" ⟨6, 0⟩
    ⟨(List.replicate 64 Partition.empty).set 6 ⟨[Entry.live "a" 1], none⟩⟩
    (by decide)

/-- C9: the reply built from a command carries the command's metadata:
equal priority, equal message id, the command's address when present, the
whole trace when the command's trace is non-empty, and the trace level in
every case. -/
theorem claim_C9 (cmd : StorageCommand) (code : Nat) :
    (StorageReply.ofCommand cmd code).priority = cmd.priority ∧
    (StorageReply.ofCommand cmd code).msgId = cmd.msgId ∧
    (∀ a, cmd.address = some a →
      (StorageReply.ofCommand cmd code).address = some a) ∧
    (cmd.trace.isEmpty = false →
      (StorageReply.ofCommand cmd code).trace = cmd.trace) ∧
    (StorageReply.ofCommand cmd code).trace.level = cmd.trace.level := by
  refine ⟨rfl, rfl, ?_, ?_, ?_⟩
  · intro a ha
    simp [StorageReply.ofCommand, ha]
  · intro he
    simp [StorageReply.ofCommand, he]
  · by_cases he : cmd.trace.isEmpty <;> simp [StorageReply.ofCommand, he]

/-- C9 witness: a concrete command (priority 5, msg id 7, address 3,
non-empty trace at level 2) yields a reply with the same metadata. -/
theorem claim_C9_witness :
    (StorageReply.ofCommand ⟨1, 5, 7, some 3, ⟨2, ["e"]⟩, 9⟩ 0).priority = 5 ∧
    (StorageReply.ofCommand ⟨1, 5, 7, some 3, ⟨2, ["e"]⟩, 9⟩ 0).msgId = 7 ∧
    (StorageReply.ofCommand ⟨1, 5, 7, some 3, ⟨2, ["e"]⟩, 9⟩ 0).address =
      some 3 ∧
    (StorageReply.ofCommand ⟨1, 5, 7, some 3, ⟨2, ["e"]⟩, 9⟩ 0).trace =
      ⟨2, ["e"]⟩ := by
  have h := claim_C9 ⟨1, 5, 7, some 3, ⟨2, ["e"]⟩, 9⟩ 0
  exact ⟨h.1, h.2.1, h.2.2.1 3 rfl, h.2.2.2.1 (by decide)⟩

/-- C10 (implicit): for every partition state and every hint — including
hint 0 and hints not larger than the current entry count — `make_entries`
strictly increases the slot count and leaves the free-list head at the
index of the last newly created slot, so the free list is non-empty
immediately after any call. -/
theorem claim_C10 (p : Partition) (hint : Nat) :
    p.entries.length < (make_entries p hint).entries.length ∧
    (make_entries p hint).free =
      some ((make_entries p hint).entries.length - 1) :=
  ⟨make_entries_length_lt p hint, make_entries_free p hint⟩

end Vespa
